import Mathlib

/-!
Verification of the FSK audio codec in `Lutheran Radio/Tools`
(`TextToAudioEncoder.py`, `AudioToTextDecoder.py`).

The Python sources are shallowly embedded here:
* floating-point configuration parameters become exact rationals,
* sample buffers become `List ℝ` (exact real semantics of the numeric code),
* the per-sample random noise draw becomes an explicit noise function
  `ℕ → ℝ` passed to the modulator,
* `scipy.fft.fft` becomes the textbook forward DFT over `ℂ`,
* `np.argmax` becomes a first-occurrence maximum scan.
-/

namespace LutheranRadio

/-- The spec's `ModulationConfig`: the module-level parameters shared by
`TextToAudioEncoder.py` and `AudioToTextDecoder.py`
(`sample_rate`, `bit_duration`, `frequency_0`, `frequency_1`, `amplitude`,
`noise_range`). -/
structure ModulationConfig where
  sampleRateHz : ℤ
  bitDurationSec : ℚ
  freqZeroHz : ℚ
  freqOneHz : ℚ
  amplitude : ℚ
  noiseMin : ℚ
  noiseMax : ℚ
deriving DecidableEq

/-- Python `int(q)`: truncation toward zero (the T-division of the
numerator by the denominator). -/
def ratTrunc (q : ℚ) : ℤ := Int.tdiv q.num q.den

lemma ratTrunc_eq_floor (q : ℚ) (h : 0 ≤ q) : ratTrunc q = ⌊q⌋ := by
  rw [ratTrunc, Rat.floor_def]
  exact Int.tdiv_eq_ediv (Rat.num_nonneg.mpr h) (by positivity)

/-- Source line `samples_per_bit = int(bit_duration * sample_rate)` shared by
both files. -/
def samples_per_bit (c : ModulationConfig) : ℕ :=
  (ratTrunc (c.bitDurationSec * (c.sampleRateHz : ℚ))).toNat

/-- Validity of a `ModulationConfig` per the spec's data model and its
`ConfigurationError` conditions (§3, §7): positive rate/duration/frequencies,
distinct tone frequencies, amplitude in `(0,1]`, ordered noise bounds, and at
least one sample per bit. -/
def ValidConfig (c : ModulationConfig) : Prop :=
  0 < c.sampleRateHz ∧ 0 < c.bitDurationSec ∧ 0 < c.freqZeroHz ∧
    0 < c.freqOneHz ∧ c.freqZeroHz ≠ c.freqOneHz ∧ 0 < c.amplitude ∧
    c.amplitude ≤ 1 ∧ c.noiseMin ≤ c.noiseMax ∧ 1 ≤ samples_per_bit c

instance (c : ModulationConfig) : Decidable (ValidConfig c) := by
  unfold ValidConfig; infer_instance

/-! ## BitCodec -/

/-- Fuel-indexed helper for Python `format(n, 'b')`: most-significant-bit
first binary digits of `n` (empty for `n = 0`); the fuel only bounds the
recursion depth, `rawBin` supplies enough of it. -/
def rawBinAux : ℕ → ℕ → List Bool
  | 0, _ => []
  | fuel + 1, n =>
    if n = 0 then [] else rawBinAux fuel (n / 2) ++ [decide (n % 2 = 1)]

/-- The binary digits of `n`, most significant first (empty for 0). -/
def rawBin (n : ℕ) : List Bool := rawBinAux n n

/-- Python `format(n, '08b')`: binary digits of `n`, zero-padded on the left
to a minimum width of 8 and never truncated.  (`format(0,'b') = "0"`, hence
the special case for 0.) -/
def charBits (n : ℕ) : List Bool :=
  let r := if n = 0 then [false] else rawBin n
  List.replicate (8 - r.length) false ++ r

/-- Source `text_to_binary` from `TextToAudioEncoder.py`: characters are modelled by
their code points.  `''.join(format(ord(char), '08b') for char in text)`. -/
def text_to_binary (text : List ℕ) : List Bool := text.flatMap charBits

/-- Python `int(s, 2)` on a string of binary digits. -/
def natOfBits (l : List Bool) : ℕ :=
  l.foldl (fun a b => 2 * a + (if b then 1 else 0)) 0

/-- Fuel-indexed helper for `binary_to_text` of `AudioToTextDecoder.py`: the
loop `for i in range(0, len(binary), 8)` keeps a chunk only when it has all
8 bits. -/
def binaryToTextAux : ℕ → List Bool → List ℕ
  | 0, _ => []
  | fuel + 1, l =>
    if 8 ≤ l.length then natOfBits (l.take 8) :: binaryToTextAux fuel (l.drop 8)
    else []

/-- Source `binary_to_text` from `AudioToTextDecoder.py` (characters modelled by code
points, i.e. `chr` is the identity embedding `ℕ`-side). -/
def binary_to_text (l : List Bool) : List ℕ := binaryToTextAux l.length l

/-! ## FSKModulator (`generate_encoded_sound`) -/

/-- The tone selected for a bit: `frequency_1 if bit == '1' else frequency_0`. -/
def toneFreq (c : ModulationConfig) (b : Bool) : ℚ :=
  if b then c.freqOneHz else c.freqZeroHz

/-- One sample of `generate_encoded_sound`:
`np.sin(2 * np.pi * frequency * t) * amplitude + noise` with
`t = current_sample / sample_rate`; the noise draw
`random.uniform(noise_range[0], noise_range[1])` is modelled by the explicit
noise stream `noise`. -/
noncomputable def sampleValue (c : ModulationConfig) (noise : ℕ → ℝ)
    (b : Bool) (n : ℕ) : ℝ :=
  Real.sin (2 * Real.pi * ((toneFreq c b : ℚ) : ℝ) *
      ((n : ℝ) / ((c.sampleRateHz : ℤ) : ℝ))) * ((c.amplitude : ℚ) : ℝ) +
    noise n

/-- The bit loop of `generate_encoded_sound`: for each bit, `samples_per_bit`
samples are appended while the global index `current_sample` keeps running
(phase-continuous). -/
noncomputable def encodeBits (c : ModulationConfig) (noise : ℕ → ℝ) :
    List Bool → ℕ → List ℝ
  | [], _ => []
  | b :: rest, n =>
      (List.range (samples_per_bit c)).map (fun j => sampleValue c noise b (n + j)) ++
        encodeBits c noise rest (n + samples_per_bit c)

/-- Source `generate_encoded_sound` from `TextToAudioEncoder.py`: the preallocated
`np.zeros(total_samples)` buffer is written sequentially, which is the
concatenation of the per-bit windows starting at `current_sample = 0`. -/
noncomputable def generate_encoded_sound (c : ModulationConfig)
    (noise : ℕ → ℝ) (bits : List Bool) : List ℝ :=
  encodeBits c noise bits 0

/-! ## FSKDemodulator (`decode_audio_to_binary`) -/

/-- Forward DFT value of the window `x` at bin `m`
(`scipy.fft.fft` convention: `X_m = Σ_j x_j e^(-2πi·m·j/len)`). -/
noncomputable def dft (x : List ℝ) (m : ℕ) : ℂ :=
  ∑ j ∈ Finset.range x.length,
    ((x.getD j 0 : ℝ) : ℂ) *
      Complex.exp (-(2 * (Real.pi : ℂ) * m * j / x.length) * Complex.I)

/-- Magnitude spectrum `np.abs(fft(segment))` of a window. -/
noncomputable def fftMags (x : List ℝ) : List ℝ :=
  (List.range x.length).map fun m => Complex.abs (dft x m)

/-- Scan of `np.argmax`: keeps the index of the running maximum, updating only
on a strictly larger value, so ties resolve to the first occurrence. -/
noncomputable def argmaxAux : ℕ → ℕ → ℝ → List ℝ → ℕ
  | _, bi, _, [] => bi
  | i, bi, bv, x :: xs =>
      if bv < x then argmaxAux (i + 1) i x xs else argmaxAux (i + 1) bi bv xs

/-- Model of `np.argmax` (first occurrence of the maximum; 0 on the empty list, which
the decoder never passes). -/
noncomputable def argmax : List ℝ → ℕ
  | [] => 0
  | x :: xs => argmaxAux 1 0 x xs

/-- Value `np.fft.fftfreq(n, 1/sample_rate)[m]`: bin `m` maps to `m*rate/n` for
`m ≤ (n-1)/2` and wraps to `(m-n)*rate/n` beyond the Nyquist index. -/
def fftfreqVal (n : ℕ) (rate : ℤ) (m : ℕ) : ℚ :=
  (((if 2 * m < n then (m : ℤ) else (m : ℤ) - (n : ℤ)) * rate : ℤ) : ℚ) / (n : ℚ)

/-- Source line `dominant_freq = abs(freqs[np.argmax(fft_vals)])` for one window. -/
noncomputable def dominantFreq (c : ModulationConfig) (seg : List ℝ) : ℚ :=
  |fftfreqVal seg.length c.sampleRateHz (argmax (fftMags seg))|

/-- The per-window classification of `decode_audio_to_binary`:
`'1' if abs(dominant_freq - frequency_1) < abs(dominant_freq - frequency_0)
else '0'`. -/
noncomputable def decodeWindow (c : ModulationConfig) (seg : List ℝ) : Bool :=
  if |dominantFreq c seg - c.freqOneHz| < |dominantFreq c seg - c.freqZeroHz|
  then true else false

/-- Source `decode_audio_to_binary` from `AudioToTextDecoder.py`:
`num_bits = len(samples) // samples_per_bit` windows, window `i` being the
slice `samples[i*samples_per_bit:(i+1)*samples_per_bit]`. -/
noncomputable def decode_audio_to_binary (c : ModulationConfig)
    (samples : List ℝ) : List Bool :=
  (List.range (samples.length / samples_per_bit c)).map fun i =>
    decodeWindow c ((samples.drop (i * samples_per_bit c)).take (samples_per_bit c))

/-! ## Basic structural lemmas -/

lemma encodeBits_length (c : ModulationConfig) (noise : ℕ → ℝ)
    (bits : List Bool) (n : ℕ) :
    (encodeBits c noise bits n).length = bits.length * samples_per_bit c := by
  induction bits generalizing n with
  | nil => simp [encodeBits]
  | cons b rest ih =>
      simp [encodeBits, ih, Nat.succ_mul, Nat.add_comm]

lemma generate_encoded_sound_length (c : ModulationConfig) (noise : ℕ → ℝ)
    (bits : List Bool) :
    (generate_encoded_sound c noise bits).length =
      bits.length * samples_per_bit c :=
  encodeBits_length c noise bits 0

lemma decode_length (c : ModulationConfig) (samples : List ℝ) :
    (decode_audio_to_binary c samples).length =
      samples.length / samples_per_bit c := by
  simp [decode_audio_to_binary]

/-! ## BitCodec lemmas -/

set_option maxRecDepth 10000

lemma rawBinAux_congr : ∀ f₁ f₂ n, n ≤ f₁ → n ≤ f₂ →
    rawBinAux f₁ n = rawBinAux f₂ n := by
  intro f₁
  induction f₁ with
  | zero =>
      intro f₂ n h1 _
      interval_cases n
      cases f₂ <;> simp [rawBinAux]
  | succ f ih =>
      intro f₂ n h1 h2
      cases f₂ with
      | zero =>
          interval_cases n
          simp [rawBinAux]
      | succ f' =>
          by_cases hn : n = 0
          · simp [rawBinAux, hn]
          · have hd : n / 2 < n := Nat.div_lt_self (Nat.pos_of_ne_zero hn) one_lt_two
            simp only [rawBinAux, if_neg hn]
            rw [ih f' (n / 2) (by omega) (by omega)]

lemma rawBin_step (n : ℕ) (hn : n ≠ 0) :
    rawBin n = rawBin (n / 2) ++ [decide (n % 2 = 1)] := by
  obtain ⟨m, rfl⟩ : ∃ m, n = m + 1 := ⟨n - 1, by omega⟩
  show rawBinAux (m + 1) (m + 1) = _
  simp only [rawBinAux, if_neg hn]
  rw [rawBinAux_congr m ((m + 1) / 2) ((m + 1) / 2) (by omega) le_rfl]
  rfl

lemma rawBin_length_le : ∀ k n, n < 2 ^ k → (rawBin n).length ≤ k := by
  intro k
  induction k with
  | zero =>
      intro n h
      have : n = 0 := by omega
      subst this
      simp [rawBin, rawBinAux]
  | succ k ih =>
      intro n h
      by_cases hn : n = 0
      · subst hn; simp [rawBin, rawBinAux]
      · rw [rawBin_step n hn]
        have h2 : n / 2 < 2 ^ k := by
          have := Nat.pow_succ 2 k
          omega
        have := ih (n / 2) h2
        simp only [List.length_append, List.length_cons, List.length_nil]
        omega

lemma rawBin_length_ge : ∀ n k, 2 ^ k ≤ n → k + 1 ≤ (rawBin n).length := by
  intro n
  induction n using Nat.strong_induction_on with
  | _ n ih =>
      intro k hk
      have hpos : 0 < 2 ^ k := pow_pos (by norm_num) k
      have hn : n ≠ 0 := by omega
      rw [rawBin_step n hn]
      simp only [List.length_append, List.length_cons, List.length_nil]
      cases k with
      | zero => omega
      | succ k' =>
          have hd : n / 2 < n := Nat.div_lt_self (Nat.pos_of_ne_zero hn) one_lt_two
          have h2 : 2 ^ k' ≤ n / 2 := by
            have := Nat.pow_succ 2 k'
            omega
          have := ih (n / 2) hd k' h2
          omega

set_option maxRecDepth 10000

lemma charBits_length_eight {b : ℕ} (hb : b < 256) : (charBits b).length = 8 := by
  revert b hb
  decide

lemma natOfBits_charBits {b : ℕ} (hb : b < 256) : natOfBits (charBits b) = b := by
  revert b hb
  decide

lemma charBits_eq_testBits {b : ℕ} (hb : b < 256) :
    charBits b = (List.range 8).map (fun k => b.testBit (7 - k)) := by
  revert b hb
  decide

lemma charBits_length_ge (b : ℕ) : 8 ≤ (charBits b).length := by
  simp only [charBits, List.length_append, List.length_replicate]
  omega

lemma charBits_length_gt {b : ℕ} (hb : 256 ≤ b) : 8 < (charBits b).length := by
  have h9 : 9 ≤ (rawBin b).length := rawBin_length_ge b 8 hb
  have hb0 : b ≠ 0 := by omega
  simp only [charBits, if_neg hb0, List.length_append, List.length_replicate]
  omega

lemma charBits_length_lt_of_ge {b : ℕ} (h : 8 < (charBits b).length) : 256 ≤ b := by
  by_contra hlt
  have := charBits_length_eight (by omega : b < 256)
  omega

lemma binaryToTextAux_congr : ∀ f₁ f₂ l, l.length ≤ f₁ → l.length ≤ f₂ →
    binaryToTextAux f₁ l = binaryToTextAux f₂ l := by
  intro f₁
  induction f₁ with
  | zero =>
      intro f₂ l h1 _
      have : l.length = 0 := by omega
      cases f₂ with
      | zero => rfl
      | succ f' => simp [binaryToTextAux, this]
  | succ f ih =>
      intro f₂ l h1 h2
      cases f₂ with
      | zero =>
          have : l.length = 0 := by omega
          simp [binaryToTextAux, this]
      | succ f' =>
          by_cases hl : 8 ≤ l.length
          · simp only [binaryToTextAux, if_pos hl]
            have hd : (l.drop 8).length = l.length - 8 := by simp
            rw [ih f' (l.drop 8) (by omega) (by omega)]
          · simp [binaryToTextAux, if_neg hl]

lemma binary_to_text_step (l : List Bool) (h : 8 ≤ l.length) :
    binary_to_text l = natOfBits (l.take 8) :: binary_to_text (l.drop 8) := by
  obtain ⟨m, hm⟩ : ∃ m, l.length = m + 1 := ⟨l.length - 1, by omega⟩
  show binaryToTextAux l.length l = _
  rw [hm]
  show (if 8 ≤ l.length then natOfBits (l.take 8) :: binaryToTextAux m (l.drop 8)
      else []) = _
  rw [if_pos h]
  congr 1
  exact binaryToTextAux_congr m (l.drop 8).length (l.drop 8)
    (by simp only [List.length_drop]; omega) le_rfl

lemma binary_to_text_short (l : List Bool) (h : l.length < 8) :
    binary_to_text l = [] := by
  show binaryToTextAux l.length l = _
  cases hl : l.length with
  | zero => rfl
  | succ m =>
      show (if 8 ≤ l.length then natOfBits (l.take 8) :: binaryToTextAux m (l.drop 8)
          else []) = _
      rw [if_neg (by omega)]

def byteBitsMSB (b : ℕ) : List Bool := (List.range 8).map fun k => b.testBit (7 - k)

lemma charBits_eq_byteBitsMSB {b : ℕ} (hb : b < 256) : charBits b = byteBitsMSB b := by
  revert b hb
  decide

lemma text_to_binary_cons (b : ℕ) (t : List ℕ) :
    text_to_binary (b :: t) = charBits b ++ text_to_binary t := by
  simp [text_to_binary]

lemma binary_to_text_text_to_binary : ∀ s : List ℕ, (∀ b ∈ s, b < 256) →
    binary_to_text (text_to_binary s) = s := by
  intro s
  induction s with
  | nil => intro _; rfl
  | cons b t ih =>
      intro h
      have hb : b < 256 := h b (by simp)
      have hlen : (charBits b).length = 8 := charBits_length_eight hb
      rw [text_to_binary_cons]
      rw [binary_to_text_step _ (by simp [hlen])]
      rw [← hlen, List.take_left, List.drop_left]
      rw [natOfBits_charBits hb, ih (fun x hx => h x (by simp [hx]))]

lemma binary_to_text_groups : ∀ l : List Bool,
    binary_to_text l = (List.range (l.length / 8)).map
      (fun i => natOfBits ((l.drop (8 * i)).take 8)) := by
  suffices H : ∀ n (l : List Bool), l.length ≤ n →
      binary_to_text l = (List.range (l.length / 8)).map
        (fun i => natOfBits ((l.drop (8 * i)).take 8)) by
    intro l; exact H l.length l le_rfl
  intro n
  induction n with
  | zero =>
      intro l h
      rw [binary_to_text_short l (by omega)]
      have h0 : l.length / 8 = 0 := by omega
      simp [h0]
  | succ n ih =>
      intro l h
      by_cases h8 : 8 ≤ l.length
      · rw [binary_to_text_step l h8]
        have hdiv : l.length / 8 = (l.length - 8) / 8 + 1 := by omega
        rw [hdiv, List.range_succ_eq_map, List.map_cons, List.map_map]
        congr 1
        rw [ih (l.drop 8) (by simp only [List.length_drop]; omega)]
        simp only [List.length_drop]
        apply List.map_congr_left
        intro i _
        simp only [Function.comp_apply, List.drop_drop]
        congr 3
        omega
      · rw [binary_to_text_short l (by omega)]
        have h0 : l.length / 8 = 0 := by omega
        simp [h0]

lemma text_to_binary_length_bytes : ∀ s : List ℕ, (∀ b ∈ s, b < 256) →
    (text_to_binary s).length = 8 * s.length := by
  intro s
  induction s with
  | nil => intro _; rfl
  | cons b t ih =>
      intro h
      rw [text_to_binary_cons]
      simp only [List.length_append, List.length_cons]
      rw [charBits_length_eight (h b (by simp)), ih (fun x hx => h x (by simp [hx]))]
      ring

lemma text_to_binary_length_ge : ∀ s : List ℕ,
    8 * s.length ≤ (text_to_binary s).length := by
  intro s
  induction s with
  | nil => simp [text_to_binary]
  | cons b t ih =>
      rw [text_to_binary_cons]
      simp only [List.length_append, List.length_cons]
      have := charBits_length_ge b
      omega

lemma text_to_binary_length_gt : ∀ s : List ℕ, (∃ b ∈ s, 256 ≤ b) →
    8 * s.length < (text_to_binary s).length := by
  intro s
  induction s with
  | nil => rintro ⟨b, hb, _⟩; simp at hb
  | cons c t ih =>
      rintro ⟨b, hb, hb256⟩
      rw [text_to_binary_cons]
      simp only [List.length_append, List.length_cons]
      rcases List.mem_cons.mp hb with h | h
      · subst h
        have h1 := charBits_length_gt hb256
        have h2 := text_to_binary_length_ge t
        omega
      · have h1 := charBits_length_ge c
        have h2 := ih ⟨b, h, hb256⟩
        omega

lemma text_to_binary_length_eq_iff (s : List ℕ) :
    (text_to_binary s).length = 8 * s.length ↔ ∀ b ∈ s, b < 256 := by
  constructor
  · intro h
    by_contra hc
    push_neg at hc
    obtain ⟨b, hb, hb256⟩ := hc
    have := text_to_binary_length_gt s ⟨b, hb, hb256⟩
    omega
  · exact text_to_binary_length_bytes s

/-! ## argmax lemmas: first occurrence of the maximum -/

lemma argmaxAux_const (xs : List ℝ) : ∀ i bi bv, (∀ x ∈ xs, x ≤ bv) →
    argmaxAux i bi bv xs = bi := by
  induction xs with
  | nil => intro i bi bv _; rfl
  | cons x xs ih =>
      intro i bi bv h
      have hx : x ≤ bv := h x (by simp)
      simp only [argmaxAux, if_neg (not_lt.mpr hx)]
      exact ih _ _ _ (fun y hy => h y (by simp [hy]))

lemma argmaxAux_first (xs : List ℝ) : ∀ idx bi bv i, i < xs.length →
    (∀ j, j < i → xs.getD j 0 < xs.getD i 0) →
    (∀ j, j < xs.length → xs.getD j 0 ≤ xs.getD i 0) →
    bv < xs.getD i 0 →
    argmaxAux idx bi bv xs = idx + i := by
  induction xs with
  | nil => intro _ _ _ i hi; simp at hi
  | cons x xs ih =>
      intro idx bi bv i hi hfirst hmax hbv
      cases i with
      | zero =>
          simp only [List.getD_cons_zero] at hbv hmax
          have hle : ∀ y ∈ xs, y ≤ x := by
            intro y hy
            obtain ⟨j, hj, rfl⟩ := List.mem_iff_get.mp hy
            have := hmax (j + 1) (by simp only [List.length_cons]; omega)
            simpa [List.getD_cons_succ, List.getD_eq_getElem] using this
          simp only [argmaxAux, if_pos hbv, argmaxAux_const xs _ _ _ hle]
          omega
      | succ i' =>
          have hi' : i' < xs.length := by
            simp only [List.length_cons] at hi; omega
          have hx : x < xs.getD i' 0 := by
            have := hfirst 0 (Nat.succ_pos i')
            simpa [List.getD_cons_zero, List.getD_cons_succ] using this
          have hrec : ∀ bi' bv', bv' < xs.getD i' 0 →
              argmaxAux (idx + 1) bi' bv' xs = idx + 1 + i' := by
            intro bi' bv' hbv'
            refine ih (idx + 1) bi' bv' i' hi' ?_ ?_ hbv'
            · intro j hj
              have := hfirst (j + 1) (by omega)
              simpa [List.getD_cons_succ] using this
            · intro j hj
              have := hmax (j + 1) (by simp only [List.length_cons]; omega)
              simpa [List.getD_cons_succ] using this
          by_cases hbx : bv < x
          · simp only [argmaxAux, if_pos hbx]
            rw [hrec idx x hx]
            omega
          · simp only [argmaxAux, if_neg hbx]
            have hbv' : bv < xs.getD i' 0 := by
              simpa [List.getD_cons_succ] using hbv
            rw [hrec bi bv hbv']
            omega

/-- Model of `np.argmax` returns the first index attaining the maximum. -/
lemma argmax_eq_of_first_max (l : List ℝ) (i : ℕ) (hi : i < l.length)
    (hfirst : ∀ j, j < i → l.getD j 0 < l.getD i 0)
    (hmax : ∀ j, j < l.length → l.getD j 0 ≤ l.getD i 0) :
    argmax l = i := by
  cases l with
  | nil => simp at hi
  | cons x xs =>
      cases i with
      | zero =>
          show argmaxAux 1 0 x xs = 0
          apply argmaxAux_const
          intro y hy
          obtain ⟨j, hj, rfl⟩ := List.mem_iff_get.mp hy
          have := hmax (j + 1) (by simp only [List.length_cons]; omega)
          simpa [List.getD_cons_succ, List.getD_cons_zero, List.getD_eq_getElem] using this
      | succ i' =>
          show argmaxAux 1 0 x xs = i' + 1
          have hi' : i' < xs.length := by
            simp only [List.length_cons] at hi; omega
          have hx : x < xs.getD i' 0 := by
            have := hfirst 0 (Nat.succ_pos i')
            simpa [List.getD_cons_zero, List.getD_cons_succ] using this
          rw [argmaxAux_first xs 1 0 x i' hi' ?_ ?_ hx]
          · omega
          · intro j hj
            have := hfirst (j + 1) (by omega)
            simpa [List.getD_cons_succ] using this
          · intro j hj
            have := hmax (j + 1) (by simp only [List.length_cons]; omega)
            simpa [List.getD_cons_succ] using this

/-! ## Window extraction from the modulated buffer -/

lemma encodeBits_segment (c : ModulationConfig) (noise : ℕ → ℝ) :
    ∀ (bits : List Bool) (n0 i : ℕ), i < bits.length →
    ((encodeBits c noise bits n0).drop (i * samples_per_bit c)).take
        (samples_per_bit c) =
      (List.range (samples_per_bit c)).map
        (fun j => sampleValue c noise (bits.getD i false)
          (n0 + i * samples_per_bit c + j)) := by
  intro bits
  induction bits with
  | nil => intro n0 i h; simp at h
  | cons b rest ih =>
      intro n0 i h
      cases i with
      | zero =>
          simp only [encodeBits, Nat.zero_mul, List.drop_zero]
          rw [List.take_left' (by simp)]
          simp [List.getD_cons_zero]
      | succ i' =>
          have hlen : ((List.range (samples_per_bit c)).map
              (fun j => sampleValue c noise b (n0 + j))).length =
              samples_per_bit c := by simp
          simp only [encodeBits]
          rw [show (i' + 1) * samples_per_bit c =
                ((List.range (samples_per_bit c)).map
                  (fun j => sampleValue c noise b (n0 + j))).length +
                  i' * samples_per_bit c by rw [hlen]; ring,
              List.drop_append]
          rw [ih (n0 + samples_per_bit c) i'
                (by simp only [List.length_cons] at h; omega)]
          simp only [List.getD_cons_succ]
          apply List.map_congr_left
          intro j _
          congr 1
          rw [hlen]
          ring

lemma generate_encoded_sound_segment (c : ModulationConfig) (noise : ℕ → ℝ)
    (bits : List Bool) (i : ℕ) (h : i < bits.length) :
    ((generate_encoded_sound c noise bits).drop (i * samples_per_bit c)).take
        (samples_per_bit c) =
      (List.range (samples_per_bit c)).map
        (fun j => sampleValue c noise (bits.getD i false)
          (i * samples_per_bit c + j)) := by
  have := encodeBits_segment c noise bits 0 i h
  simpa [generate_encoded_sound] using this

/-! ## DFT of a pure bin-aligned sine window -/

lemma complex_sin_exp (z : ℂ) :
    Complex.sin z =
      (Complex.exp (z * Complex.I) - Complex.exp (-z * Complex.I)) / (2 * Complex.I) := by
  have h1 := Complex.exp_mul_I z
  have h2 := Complex.exp_mul_I (-z)
  rw [Complex.cos_neg, Complex.sin_neg, neg_mul] at h2
  rw [neg_mul]
  field_simp
  rw [h1, h2]
  ring

lemma exp_unit_sum (N : ℕ) (hN : 0 < N) (r : ℤ) :
    ∑ j ∈ Finset.range N,
        Complex.exp (2 * (Real.pi : ℂ) * r * j / N * Complex.I)
      = if (N : ℤ) ∣ r then (N : ℂ) else 0 := by
  have hNC : (N : ℂ) ≠ 0 := Nat.cast_ne_zero.mpr hN.ne'
  have hpi : ((Real.pi : ℝ) : ℂ) ≠ 0 := Complex.ofReal_ne_zero.mpr Real.pi_ne_zero
  have hI : (Complex.I : ℂ) ≠ 0 := Complex.I_ne_zero
  set w : ℂ := Complex.exp (2 * (Real.pi : ℂ) * r / N * Complex.I) with hw
  have hterm : ∀ j ∈ Finset.range N,
      Complex.exp (2 * (Real.pi : ℂ) * r * j / N * Complex.I) = w ^ j := by
    intro j _
    rw [hw, ← Complex.exp_nat_mul]
    congr 1
    ring
  rw [Finset.sum_congr rfl hterm]
  by_cases hdvd : (N : ℤ) ∣ r
  · rw [if_pos hdvd]
    obtain ⟨t, ht⟩ := hdvd
    have hw1 : w = 1 := by
      rw [hw]
      have harg : 2 * (Real.pi : ℂ) * r / N * Complex.I =
          t * (2 * Real.pi * Complex.I) := by
        rw [ht]
        push_cast
        field_simp
        ring
      rw [harg, Complex.exp_int_mul_two_pi_mul_I]
    simp [hw1]
  · rw [if_neg hdvd]
    have hwn : w ≠ 1 := by
      intro h1
      rw [hw, Complex.exp_eq_one_iff] at h1
      obtain ⟨n, hn⟩ := h1
      apply hdvd
      refine ⟨n, ?_⟩
      have h2 : (r : ℂ) = N * n := by
        field_simp at hn
        have ha : (2 * (Real.pi : ℂ) * Complex.I) * r =
            (2 * Real.pi * Complex.I) * (N * n) := by
          linear_combination hn
        have hb : (2 * (Real.pi : ℂ) * Complex.I) ≠ 0 := by simp [hpi, hI]
        exact mul_left_cancel₀ hb ha
      exact_mod_cast h2
    rw [geom_sum_eq hwn]
    have hwN : w ^ N = 1 := by
      rw [hw, ← Complex.exp_nat_mul]
      have harg : (N : ℂ) * (2 * (Real.pi : ℂ) * r / N * Complex.I) =
          r * (2 * Real.pi * Complex.I) := by
        field_simp
        ring
      rw [harg, Complex.exp_int_mul_two_pi_mul_I]
    rw [hwN]
    simp

noncomputable def windowSig (A : ℝ) (N k : ℕ) : List ℝ :=
  (List.range N).map fun (j : ℕ) => Real.sin (2 * Real.pi * k * j / N) * A

lemma int_dvd_small (N r : ℤ) (hN : 0 < N) (h1 : -N < r) (h2 : r < N) :
    N ∣ r ↔ r = 0 := by
  constructor
  · rintro ⟨t, rfl⟩
    rcases lt_trichotomy t 0 with ht | rfl | ht
    · have := mul_le_mul_of_nonneg_left (by omega : t ≤ -1) hN.le
      simp only [mul_neg_one] at this
      linarith
    · simp
    · have := mul_le_mul_of_nonneg_left (by omega : 1 ≤ t) hN.le
      simp only [mul_one] at this
      linarith
  · rintro rfl; exact dvd_zero N

lemma int_dvd_between (N a : ℤ) (hN : 0 < N) (h1 : 0 < a) (h2 : a < 2 * N) :
    N ∣ a ↔ a = N := by
  constructor
  · rintro ⟨t, rfl⟩
    have h3 : 1 ≤ t := by
      by_contra h
      push_neg at h
      have := mul_le_mul_of_nonneg_left (by omega : t ≤ 0) hN.le
      simp only [mul_zero] at this
      linarith
    have h4 : t < 2 := by
      by_contra h
      push_neg at h
      have := mul_le_mul_of_nonneg_left h hN.le
      linarith
    have : t = 1 := by omega
    simp [this]
  · rintro rfl; exact Dvd.intro 1 (by ring)

lemma windowSig_length (A : ℝ) (N k : ℕ) : (windowSig A N k).length = N := by
  simp only [windowSig, List.length_map, List.length_range]

lemma windowSig_getD (A : ℝ) (N k j : ℕ) (hj : j < N) :
    (windowSig A N k).getD j 0 = Real.sin (2 * Real.pi * k * j / N) * A := by
  have hlen : j < ((List.range N).map
      fun (j : ℕ) => Real.sin (2 * Real.pi * k * j / N) * A).length := by
    simpa using hj
  rw [windowSig, List.getD_eq_getElem _ _ hlen, List.getElem_map, List.getElem_range]

lemma dft_windowSig_sum (A : ℝ) (N k m : ℕ) (hN : 0 < N) :
    dft (windowSig A N k) m =
      (A : ℂ) / (2 * Complex.I) *
        ((if (N : ℤ) ∣ ((k : ℤ) - m) then (N : ℂ) else 0) -
          (if (N : ℤ) ∣ (-((k : ℤ) + m)) then (N : ℂ) else 0)) := by
  rw [dft, windowSig_length]
  have hterm : ∀ j ∈ Finset.range N,
      ((windowSig A N k).getD j 0 : ℂ) *
          Complex.exp (-(2 * (Real.pi : ℂ) * m * j / N) * Complex.I) =
        (A : ℂ) / (2 * Complex.I) *
          (Complex.exp (2 * (Real.pi : ℂ) * (((k : ℤ) - m : ℤ) : ℂ) * j / N * Complex.I) -
            Complex.exp (2 * (Real.pi : ℂ) * ((-((k : ℤ) + m) : ℤ) : ℂ) * j / N * Complex.I)) := by
    intro j hj
    rw [windowSig_getD A N k j (Finset.mem_range.mp hj)]
    have hcast : ((Real.sin (2 * Real.pi * k * j / N) * A : ℝ) : ℂ) =
        Complex.sin (2 * (Real.pi : ℂ) * k * j / N) * (A : ℂ) := by
      push_cast
      ring_nf
    rw [hcast, complex_sin_exp]
    have e1 : Complex.exp (2 * (Real.pi : ℂ) * k * j / N * Complex.I) *
        Complex.exp (-(2 * (Real.pi : ℂ) * m * j / N) * Complex.I) =
        Complex.exp (2 * (Real.pi : ℂ) * (((k : ℤ) - m : ℤ) : ℂ) * j / N * Complex.I) := by
      rw [← Complex.exp_add]
      congr 1
      push_cast
      ring
    have e2 : Complex.exp (-(2 * (Real.pi : ℂ) * k * j / N) * Complex.I) *
        Complex.exp (-(2 * (Real.pi : ℂ) * m * j / N) * Complex.I) =
        Complex.exp (2 * (Real.pi : ℂ) * ((-((k : ℤ) + m) : ℤ) : ℂ) * j / N * Complex.I) := by
      rw [← Complex.exp_add]
      congr 1
      push_cast
      ring
    calc (Complex.exp (2 * (Real.pi : ℂ) * k * j / N * Complex.I) -
            Complex.exp (-(2 * (Real.pi : ℂ) * k * j / N) * Complex.I)) / (2 * Complex.I) *
            (A : ℂ) * Complex.exp (-(2 * (Real.pi : ℂ) * m * j / N) * Complex.I)
        = (A : ℂ) / (2 * Complex.I) *
            (Complex.exp (2 * (Real.pi : ℂ) * k * j / N * Complex.I) *
              Complex.exp (-(2 * (Real.pi : ℂ) * m * j / N) * Complex.I) -
             Complex.exp (-(2 * (Real.pi : ℂ) * k * j / N) * Complex.I) *
              Complex.exp (-(2 * (Real.pi : ℂ) * m * j / N) * Complex.I)) := by ring
      _ = _ := by rw [e1, e2]
  rw [Finset.sum_congr rfl hterm, ← Finset.mul_sum, Finset.sum_sub_distrib]
  rw [exp_unit_sum N hN ((k : ℤ) - m), exp_unit_sum N hN (-((k : ℤ) + m))]

lemma dft_windowSig (A : ℝ) (N k m : ℕ) (hN : 0 < N) (hk : 1 ≤ k)
    (h2k : 2 * k < N) (hm : m < N) :
    dft (windowSig A N k) m =
      if m = k then -(((A : ℂ) * N / 2) * Complex.I)
      else if m = N - k then ((A : ℂ) * N / 2) * Complex.I
      else 0 := by
  have hNZ : (0 : ℤ) < (N : ℤ) := by exact_mod_cast hN
  have h2I : (2 * Complex.I) ≠ 0 := by simp [Complex.I_ne_zero]
  rw [dft_windowSig_sum A N k m hN]
  by_cases h1 : m = k
  · subst h1
    rw [if_pos rfl]
    have hr1 : ((m : ℤ) - m) = 0 := by ring
    rw [hr1, if_pos (dvd_zero _)]
    have hr2 : ¬ (N : ℤ) ∣ (-((m : ℤ) + m)) := by
      rw [Int.dvd_neg]
      rw [int_dvd_between _ _ hNZ (by omega) (by omega)]
      omega
    rw [if_neg hr2]
    rw [sub_zero, div_mul_eq_mul_div, div_eq_iff h2I]
    ring_nf
    rw [Complex.I_sq]
    ring
  · by_cases h2 : m = N - k
    · subst h2
      rw [if_neg h1, if_pos rfl]
      have hkN : k ≤ N := by omega
      have hcast : ((N - k : ℕ) : ℤ) = (N : ℤ) - k := by
        push_cast [Nat.cast_sub hkN]
        ring
      have hr1 : ¬ (N : ℤ) ∣ ((k : ℤ) - ((N - k : ℕ) : ℤ)) := by
        rw [hcast]
        rw [int_dvd_small _ _ hNZ (by omega) (by omega)]
        omega
      have hr2 : (N : ℤ) ∣ (-((k : ℤ) + ((N - k : ℕ) : ℤ))) := by
        rw [hcast]
        refine ⟨-1, by ring⟩
      rw [if_neg hr1, if_pos hr2]
      rw [zero_sub, div_mul_eq_mul_div, mul_neg, ← neg_mul]
      rw [div_eq_iff h2I]
      ring_nf
      rw [Complex.I_sq]
      ring
    · rw [if_neg h1, if_neg h2]
      have hr1 : ¬ (N : ℤ) ∣ ((k : ℤ) - m) := by
        rw [int_dvd_small _ _ hNZ (by omega) (by omega)]
        omega
      have hr2 : ¬ (N : ℤ) ∣ (-((k : ℤ) + m)) := by
        rw [Int.dvd_neg]
        rw [int_dvd_between _ _ hNZ (by omega) (by omega)]
        omega
      rw [if_neg hr1, if_neg hr2]
      ring

lemma fftMags_length (x : List ℝ) : (fftMags x).length = x.length := by
  simp only [fftMags, List.length_map, List.length_range]

lemma fftMags_getD (x : List ℝ) (m : ℕ) (hm : m < x.length) :
    (fftMags x).getD m 0 = Complex.abs (dft x m) := by
  have hlen : m < ((List.range x.length).map
      fun m => Complex.abs (dft x m)).length := by
    simpa using hm
  rw [fftMags, List.getD_eq_getElem _ _ hlen, List.getElem_map, List.getElem_range]

lemma fftMags_windowSig_getD (A : ℝ) (N k m : ℕ) (hA : 0 < A) (hN : 0 < N)
    (hk : 1 ≤ k) (h2k : 2 * k < N) (hm : m < N) :
    (fftMags (windowSig A N k)).getD m 0 =
      if m = k ∨ m = N - k then A * N / 2 else 0 := by
  have hm' : m < (windowSig A N k).length := by rw [windowSig_length]; exact hm
  rw [fftMags_getD _ _ hm', dft_windowSig A N k m hN hk h2k hm]
  have hcast : ((A : ℂ) * N / 2) = ((A * N / 2 : ℝ) : ℂ) := by push_cast; ring
  have habs : Complex.abs (((A : ℂ) * N / 2) * Complex.I) = A * N / 2 := by
    rw [hcast, map_mul, Complex.abs_ofReal, Complex.abs_I, mul_one,
      abs_of_pos (by positivity)]
  by_cases h1 : m = k
  · rw [if_pos h1, if_pos (Or.inl h1), AbsoluteValue.map_neg, habs]
  · by_cases h2 : m = N - k
    · rw [if_neg h1, if_pos h2, if_pos (Or.inr h2), habs]
    · rw [if_neg h1, if_neg h2, if_neg (by tauto), map_zero]

lemma argmax_fftMags_windowSig (A : ℝ) (N k : ℕ) (hA : 0 < A) (hN : 0 < N)
    (hk : 1 ≤ k) (h2k : 2 * k < N) :
    argmax (fftMags (windowSig A N k)) = k := by
  have hkN : k < N := by omega
  have hlen : (fftMags (windowSig A N k)).length = N := by
    rw [fftMags_length, windowSig_length]
  have hpos : (0 : ℝ) < A * N / 2 := by positivity
  have hgk : (fftMags (windowSig A N k)).getD k 0 = A * N / 2 := by
    rw [fftMags_windowSig_getD A N k k hA hN hk h2k hkN, if_pos (Or.inl rfl)]
  apply argmax_eq_of_first_max _ k (by omega)
  · intro j hj
    have hjN : j < N := by omega
    rw [hgk, fftMags_windowSig_getD A N k j hA hN hk h2k hjN]
    rw [if_neg (by omega)]
    exact hpos
  · intro j hj
    rw [hlen] at hj
    rw [hgk, fftMags_windowSig_getD A N k j hA hN hk h2k hj]
    by_cases hcase : j = k ∨ j = N - k
    · rw [if_pos hcase]
    · rw [if_neg hcase]
      positivity

/-! ## Classification of a pure bin-aligned window -/

lemma dominantFreq_windowSig (c : ModulationConfig) (A : ℝ) (k : ℕ)
    (hA : 0 < A) (hR : 0 < c.sampleRateHz) (hk : 1 ≤ k)
    (h2k : 2 * k < samples_per_bit c) :
    dominantFreq c (windowSig A (samples_per_bit c) k) =
      (k : ℚ) * (c.sampleRateHz : ℚ) / (samples_per_bit c : ℚ) := by
  have hN0 : 0 < samples_per_bit c := by omega
  rw [dominantFreq, windowSig_length,
    argmax_fftMags_windowSig A (samples_per_bit c) k hA hN0 hk h2k]
  rw [fftfreqVal, if_pos h2k]
  have hRQ : (0 : ℚ) ≤ (c.sampleRateHz : ℚ) := by exact_mod_cast hR.le
  have hnonneg : (0 : ℚ) ≤
      (((k : ℤ) * c.sampleRateHz : ℤ) : ℚ) / ((samples_per_bit c : ℕ) : ℚ) := by
    apply div_nonneg
    · push_cast
      exact mul_nonneg (Nat.cast_nonneg k) hRQ
    · positivity
  rw [abs_of_nonneg hnonneg]
  push_cast
  ring

lemma decodeWindow_pure (c : ModulationConfig) (A : ℝ) (k0 k1 : ℕ) (b : Bool)
    (hA : 0 < A) (hR : 0 < c.sampleRateHz)
    (hk0 : 1 ≤ k0) (h2k0 : 2 * k0 < samples_per_bit c)
    (hk1 : 1 ≤ k1) (h2k1 : 2 * k1 < samples_per_bit c)
    (hne : k0 ≠ k1)
    (hf0 : c.freqZeroHz * (samples_per_bit c : ℚ) = (k0 : ℚ) * c.sampleRateHz)
    (hf1 : c.freqOneHz * (samples_per_bit c : ℚ) = (k1 : ℚ) * c.sampleRateHz) :
    decodeWindow c (windowSig A (samples_per_bit c) (if b then k1 else k0)) = b := by
  have hN0 : 0 < samples_per_bit c := by omega
  have hNQ : ((samples_per_bit c : ℕ) : ℚ) ≠ 0 := by
    exact_mod_cast hN0.ne'
  have hRQ : (0 : ℚ) < (c.sampleRateHz : ℚ) := by exact_mod_cast hR
  have hf0' : c.freqZeroHz = (k0 : ℚ) * c.sampleRateHz / (samples_per_bit c : ℚ) :=
    (eq_div_iff hNQ).mpr hf0
  have hf1' : c.freqOneHz = (k1 : ℚ) * c.sampleRateHz / (samples_per_bit c : ℚ) :=
    (eq_div_iff hNQ).mpr hf1
  have hff : c.freqOneHz ≠ c.freqZeroHz := by
    intro h
    apply hne
    have h2 : (k0 : ℚ) * c.sampleRateHz = (k1 : ℚ) * c.sampleRateHz := by
      rw [← hf0, ← hf1, h]
    have h3 : (k0 : ℚ) = (k1 : ℚ) := mul_right_cancel₀ hRQ.ne' h2
    exact_mod_cast h3
  cases b with
  | false =>
      have hred : (if false then k1 else k0) = k0 := rfl
      rw [hred, decodeWindow, dominantFreq_windowSig c A k0 hA hR hk0 h2k0, ← hf0']
      rw [sub_self, abs_zero]
      rw [if_neg (not_lt.mpr (abs_nonneg _))]
  | true =>
      have hred : (if true then k1 else k0) = k1 := rfl
      rw [hred, decodeWindow, dominantFreq_windowSig c A k1 hA hR hk1 h2k1, ← hf1']
      rw [sub_self, abs_zero]
      rw [if_pos (abs_pos.mpr (sub_ne_zero.mpr hff))]

lemma sample_window_eq (c : ModulationConfig) (noise : ℕ → ℝ) (b : Bool)
    (k i : ℕ) (hnoise : ∀ n, noise n = 0) (hR : 0 < c.sampleRateHz)
    (hN0 : 0 < samples_per_bit c)
    (hfk : (toneFreq c b) * (samples_per_bit c : ℚ) = (k : ℚ) * c.sampleRateHz) :
    (List.range (samples_per_bit c)).map
        (fun j => sampleValue c noise b (i * samples_per_bit c + j)) =
      windowSig ((c.amplitude : ℚ) : ℝ) (samples_per_bit c) k := by
  have hRR : ((c.sampleRateHz : ℤ) : ℝ) ≠ 0 := by
    have : (0 : ℝ) < ((c.sampleRateHz : ℤ) : ℝ) := by exact_mod_cast hR
    exact this.ne'
  have hNR : ((samples_per_bit c : ℕ) : ℝ) ≠ 0 := by
    exact_mod_cast hN0.ne'
  have hfk' : ((toneFreq c b : ℚ) : ℝ) * ((samples_per_bit c : ℕ) : ℝ) =
      (k : ℝ) * ((c.sampleRateHz : ℤ) : ℝ) := by
    exact_mod_cast congrArg (fun q : ℚ => (q : ℝ)) hfk
  have hf' : ((toneFreq c b : ℚ) : ℝ) =
      (k : ℝ) * ((c.sampleRateHz : ℤ) : ℝ) / ((samples_per_bit c : ℕ) : ℝ) :=
    (eq_div_iff hNR).mpr hfk'
  rw [windowSig]
  apply List.map_congr_left
  intro j hj
  rw [sampleValue, hnoise, add_zero]
  congr 1
  have hang : 2 * Real.pi * ((toneFreq c b : ℚ) : ℝ) *
      (((i * samples_per_bit c + j : ℕ) : ℝ) / ((c.sampleRateHz : ℤ) : ℝ)) =
      2 * Real.pi * (k : ℝ) * (j : ℝ) / ((samples_per_bit c : ℕ) : ℝ) +
        ((k * i : ℕ) : ℝ) * (2 * Real.pi) := by
    rw [hf']
    push_cast
    field_simp
    ring
  rw [hang, Real.sin_add_nat_mul_two_pi]

lemma list_map_getD_range {α : Type} (l : List α) (d : α) :
    (List.range l.length).map (fun i => l.getD i d) = l := by
  induction l with
  | nil => rfl
  | cons x xs ih =>
      rw [List.length_cons, List.range_succ_eq_map, List.map_cons, List.map_map]
      have htail : (List.range xs.length).map
          ((fun i => (x :: xs).getD i d) ∘ Nat.succ) =
          (List.range xs.length).map (fun i => xs.getD i d) := by
        apply List.map_congr_left
        intro i _
        simp [List.getD_cons_succ]
      rw [htail, ih]
      simp [List.getD_cons_zero]

/-! ## Noise-free bin-aligned round trip -/

lemma decode_encode_pure (c : ModulationConfig) (noise : ℕ → ℝ)
    (bits : List Bool) (k0 k1 : ℕ)
    (hR : 0 < c.sampleRateHz) (hA : 0 < c.amplitude)
    (hnoise : ∀ n, noise n = 0)
    (hk0 : 1 ≤ k0) (h2k0 : 2 * k0 < samples_per_bit c)
    (hk1 : 1 ≤ k1) (h2k1 : 2 * k1 < samples_per_bit c)
    (hne : k0 ≠ k1)
    (hf0 : c.freqZeroHz * (samples_per_bit c : ℚ) = (k0 : ℚ) * c.sampleRateHz)
    (hf1 : c.freqOneHz * (samples_per_bit c : ℚ) = (k1 : ℚ) * c.sampleRateHz) :
    decode_audio_to_binary c (generate_encoded_sound c noise bits) = bits := by
  have hN0 : 0 < samples_per_bit c := by omega
  have hA' : (0 : ℝ) < ((c.amplitude : ℚ) : ℝ) := by exact_mod_cast hA
  rw [decode_audio_to_binary, generate_encoded_sound_length,
    Nat.mul_div_cancel _ hN0]
  conv_rhs => rw [← list_map_getD_range bits false]
  apply List.map_congr_left
  intro i hi
  have hi' : i < bits.length := List.mem_range.mp hi
  rw [generate_encoded_sound_segment c noise bits i hi']
  have hfk : toneFreq c (bits.getD i false) * (samples_per_bit c : ℚ) =
      ((if bits.getD i false then k1 else k0 : ℕ) : ℚ) * c.sampleRateHz := by
    cases h : bits.getD i false <;> simp [toneFreq, hf0, hf1]
  rw [sample_window_eq c noise (bits.getD i false)
    (if bits.getD i false then k1 else k0) i hnoise hR hN0 hfk]
  exact decodeWindow_pure c _ k0 k1 (bits.getD i false) hA' hR hk0 h2k0 hk1
    h2k1 hne hf0 hf1

/-! ## Two-sample windows (used for concrete decodes) -/

lemma dft_pair_zero (a b : ℝ) : dft [a, b] 0 = (a : ℂ) + b := by
  rw [dft]
  simp only [List.length_cons, List.length_nil]
  rw [Finset.sum_range_succ, Finset.sum_range_succ, Finset.sum_range_zero]
  simp only [List.getD_cons_zero, List.getD_cons_succ]
  norm_num

lemma dft_pair_one (a b : ℝ) : dft [a, b] 1 = (a : ℂ) - b := by
  rw [dft]
  simp only [List.length_cons, List.length_nil]
  rw [Finset.sum_range_succ, Finset.sum_range_succ, Finset.sum_range_zero]
  simp only [List.getD_cons_zero, List.getD_cons_succ]
  have h1 : -(2 * (Real.pi : ℂ) * 1 * 1 / (1 + 1)) * Complex.I =
      -((Real.pi : ℂ) * Complex.I) := by
    ring_nf
  have h2 : Complex.exp (-((Real.pi : ℂ) * Complex.I)) = -1 := by
    rw [show -((Real.pi : ℂ) * Complex.I) = -((Real.pi : ℂ) * Complex.I) from rfl,
      Complex.exp_neg, Complex.exp_pi_mul_I]
    norm_num
  norm_num
  rw [h2]
  ring

lemma fftMags_pair (a b : ℝ) : fftMags [a, b] = [|a + b|, |a - b|] := by
  rw [fftMags]
  simp only [List.length_cons, List.length_nil]
  rw [show List.range (0 + 1 + 1) = [0, 1] from rfl]
  simp only [List.map_cons, List.map_nil]
  rw [dft_pair_zero, dft_pair_one]
  rw [show (a : ℂ) + b = ((a + b : ℝ) : ℂ) by push_cast; ring,
    show (a : ℂ) - b = ((a - b : ℝ) : ℂ) by push_cast; ring,
    Complex.abs_ofReal, Complex.abs_ofReal]

lemma argmax_pair (u v : ℝ) : argmax [u, v] = if u < v then 1 else 0 := by
  rw [argmax]
  by_cases h : u < v
  · rw [if_pos h]
    simp only [argmaxAux, if_pos h]
  · rw [if_neg h]
    simp only [argmaxAux, if_neg h]

lemma decodeWindow_pair (c : ModulationConfig) (a b : ℝ)
    (hle : |a - b| ≤ |a + b|)
    (hf0 : 0 < c.freqZeroHz) (h01 : c.freqZeroHz < c.freqOneHz) :
    decodeWindow c [a, b] = false := by
  have hdom : dominantFreq c [a, b] = 0 := by
    rw [dominantFreq, fftMags_pair, argmax_pair, if_neg (not_lt.mpr hle)]
    simp only [List.length_cons, List.length_nil]
    rw [fftfreqVal]
    norm_num
  rw [decodeWindow, hdom]
  rw [zero_sub, zero_sub, abs_neg, abs_neg,
    abs_of_pos (lt_trans hf0 h01), abs_of_pos hf0]
  rw [if_neg (not_lt.mpr (le_of_lt h01))]

lemma abs_sub_le_abs_add_of_mul_nonneg (x y : ℝ) (h : 0 ≤ x * y) :
    |x - y| ≤ |x + y| := by
  have hsq : (x - y) ^ 2 ≤ (x + y) ^ 2 := by nlinarith
  calc |x - y| = Real.sqrt ((x - y) ^ 2) := (Real.sqrt_sq_eq_abs _).symm
    _ ≤ Real.sqrt ((x + y) ^ 2) := Real.sqrt_le_sqrt hsq
    _ = |x + y| := Real.sqrt_sq_eq_abs _

lemma abs_sub_le_abs_add_of_left_zero (x y : ℝ) (hx : x = 0) :
    |x - y| ≤ |x + y| := by
  subst hx
  rw [zero_sub, zero_add, abs_neg]

/-! ## A concrete config with separated, non-bin-aligned tones -/

/-- Counterexample configuration: 8 Hz sample rate, 2 samples per bit,
tones 1 Hz and 6 Hz (separation 5 Hz, resolution 8/2 = 4 Hz). -/
def cexConfig : ModulationConfig where
  sampleRateHz := 8
  bitDurationSec := 1/4
  freqZeroHz := 1
  freqOneHz := 6
  amplitude := 1/10
  noiseMin := 0
  noiseMax := 0

lemma cex_spb : samples_per_bit cexConfig = 2 := by
  rw [samples_per_bit,
    show cexConfig.bitDurationSec * ((cexConfig.sampleRateHz : ℤ) : ℚ) = 2 by
      norm_num [cexConfig]]
  rw [ratTrunc]
  norm_num
  rfl

/-- The bits of the single byte `0x01`. -/
def cexBits : List Bool :=
  [false, false, false, false, false, false, false, true]

lemma cex_bits : text_to_binary [1] = cexBits := by decide

lemma cex_sample_false (n : ℕ) :
    sampleValue cexConfig (fun _ => 0) false n =
      Real.sin (Real.pi * n / 4) * (1 / 10) := by
  rw [sampleValue]
  simp only [toneFreq, cexConfig, if_neg Bool.false_ne_true]
  push_cast
  rw [add_zero]
  congr 1
  ring

lemma cex_sample_true (n : ℕ) :
    sampleValue cexConfig (fun _ => 0) true n =
      Real.sin (Real.pi * (3 * n) / 2) * (1 / 10) := by
  rw [sampleValue]
  simp only [toneFreq, cexConfig, if_pos rfl]
  push_cast
  rw [add_zero]
  congr 1
  ring

lemma cex_s0 : sampleValue cexConfig (fun _ => 0) false 0 = 0 := by
  rw [cex_sample_false]
  norm_num

lemma cex_s4 : sampleValue cexConfig (fun _ => 0) false 4 = 0 := by
  rw [cex_sample_false]
  rw [show Real.pi * (4 : ℕ) / 4 = Real.pi by push_cast; ring, Real.sin_pi]
  ring

lemma cex_s8 : sampleValue cexConfig (fun _ => 0) false 8 = 0 := by
  rw [cex_sample_false]
  rw [show Real.pi * (8 : ℕ) / 4 = 0 + 2 * Real.pi by push_cast; ring,
    Real.sin_add_two_pi, Real.sin_zero]
  ring

lemma cex_s12 : sampleValue cexConfig (fun _ => 0) false 12 = 0 := by
  rw [cex_sample_false]
  rw [show Real.pi * (12 : ℕ) / 4 = Real.pi + 2 * Real.pi by push_cast; ring,
    Real.sin_add_two_pi, Real.sin_pi]
  ring

lemma cex_s14 : sampleValue cexConfig (fun _ => 0) true 14 = 0 := by
  rw [cex_sample_true]
  rw [show Real.pi * (3 * (14 : ℕ)) / 2 = (21 : ℕ) * Real.pi by push_cast; ring,
    Real.sin_nat_mul_pi]
  ring

lemma cex_s2 : 0 < sampleValue cexConfig (fun _ => 0) false 2 := by
  rw [cex_sample_false]
  rw [show Real.pi * (2 : ℕ) / 4 = Real.pi / 2 by push_cast; ring,
    Real.sin_pi_div_two]
  norm_num

lemma cex_s3 : 0 < sampleValue cexConfig (fun _ => 0) false 3 := by
  rw [cex_sample_false]
  have hpos : 0 < Real.sin (Real.pi * (3 : ℕ) / 4) := by
    apply Real.sin_pos_of_pos_of_lt_pi
    · positivity
    · push_cast
      nlinarith [Real.pi_pos]
  positivity

lemma cex_s6 : sampleValue cexConfig (fun _ => 0) false 6 < 0 := by
  rw [cex_sample_false]
  rw [show Real.pi * (6 : ℕ) / 4 = Real.pi + Real.pi / 2 by push_cast; ring]
  rw [Real.sin_add, Real.sin_pi, Real.cos_pi, Real.sin_pi_div_two]
  norm_num

lemma cex_s7 : sampleValue cexConfig (fun _ => 0) false 7 < 0 := by
  rw [cex_sample_false]
  rw [show Real.pi * (7 : ℕ) / 4 = -(Real.pi / 4) + 2 * Real.pi by push_cast; ring,
    Real.sin_add_two_pi, Real.sin_neg]
  have hpos : 0 < Real.sin (Real.pi / 4) := by
    apply Real.sin_pos_of_pos_of_lt_pi
    · positivity
    · nlinarith [Real.pi_pos]
  nlinarith

lemma cex_s10 : 0 < sampleValue cexConfig (fun _ => 0) false 10 := by
  rw [cex_sample_false]
  rw [show Real.pi * (10 : ℕ) / 4 = Real.pi / 2 + 2 * Real.pi by push_cast; ring,
    Real.sin_add_two_pi, Real.sin_pi_div_two]
  norm_num

lemma cex_s11 : 0 < sampleValue cexConfig (fun _ => 0) false 11 := by
  rw [cex_sample_false]
  rw [show Real.pi * (11 : ℕ) / 4 = Real.pi * 3 / 4 + 2 * Real.pi by push_cast; ring,
    Real.sin_add_two_pi]
  have hpos : 0 < Real.sin (Real.pi * 3 / 4) := by
    apply Real.sin_pos_of_pos_of_lt_pi
    · positivity
    · nlinarith [Real.pi_pos]
  positivity

lemma cex_len : cexBits.length = 8 := rfl

lemma cex_f0_pos : 0 < cexConfig.freqZeroHz := by norm_num [cexConfig]

lemma cex_f01 : cexConfig.freqZeroHz < cexConfig.freqOneHz := by
  norm_num [cexConfig]

lemma cex_seg (i : ℕ) (hi : i < 8) :
    ((generate_encoded_sound cexConfig (fun _ => 0) cexBits).drop (i * 2)).take 2 =
      [sampleValue cexConfig (fun _ => 0) (cexBits.getD i false) (i * 2 + 0),
       sampleValue cexConfig (fun _ => 0) (cexBits.getD i false) (i * 2 + 1)] := by
  have h := generate_encoded_sound_segment cexConfig (fun _ => 0) cexBits i
    (by rw [cex_len]; exact hi)
  rw [cex_spb] at h
  rw [h]
  rfl

lemma cex_w0 : decodeWindow cexConfig
    (((generate_encoded_sound cexConfig (fun _ => 0) cexBits).drop (0 * 2)).take 2) =
    false := by
  rw [cex_seg 0 (by norm_num)]
  exact decodeWindow_pair _ _ _
    (abs_sub_le_abs_add_of_left_zero _ _ cex_s0) cex_f0_pos cex_f01

lemma cex_w1 : decodeWindow cexConfig
    (((generate_encoded_sound cexConfig (fun _ => 0) cexBits).drop (1 * 2)).take 2) =
    false := by
  rw [cex_seg 1 (by norm_num)]
  exact decodeWindow_pair _ _ _
    (abs_sub_le_abs_add_of_mul_nonneg _ _ (le_of_lt (mul_pos cex_s2 cex_s3)))
    cex_f0_pos cex_f01

lemma cex_w2 : decodeWindow cexConfig
    (((generate_encoded_sound cexConfig (fun _ => 0) cexBits).drop (2 * 2)).take 2) =
    false := by
  rw [cex_seg 2 (by norm_num)]
  exact decodeWindow_pair _ _ _
    (abs_sub_le_abs_add_of_left_zero _ _ cex_s4) cex_f0_pos cex_f01

lemma cex_w3 : decodeWindow cexConfig
    (((generate_encoded_sound cexConfig (fun _ => 0) cexBits).drop (3 * 2)).take 2) =
    false := by
  rw [cex_seg 3 (by norm_num)]
  exact decodeWindow_pair _ _ _
    (abs_sub_le_abs_add_of_mul_nonneg _ _
      (le_of_lt (mul_pos_of_neg_of_neg cex_s6 cex_s7))) cex_f0_pos cex_f01

lemma cex_w4 : decodeWindow cexConfig
    (((generate_encoded_sound cexConfig (fun _ => 0) cexBits).drop (4 * 2)).take 2) =
    false := by
  rw [cex_seg 4 (by norm_num)]
  exact decodeWindow_pair _ _ _
    (abs_sub_le_abs_add_of_left_zero _ _ cex_s8) cex_f0_pos cex_f01

lemma cex_w5 : decodeWindow cexConfig
    (((generate_encoded_sound cexConfig (fun _ => 0) cexBits).drop (5 * 2)).take 2) =
    false := by
  rw [cex_seg 5 (by norm_num)]
  exact decodeWindow_pair _ _ _
    (abs_sub_le_abs_add_of_mul_nonneg _ _ (le_of_lt (mul_pos cex_s10 cex_s11)))
    cex_f0_pos cex_f01

lemma cex_w6 : decodeWindow cexConfig
    (((generate_encoded_sound cexConfig (fun _ => 0) cexBits).drop (6 * 2)).take 2) =
    false := by
  rw [cex_seg 6 (by norm_num)]
  exact decodeWindow_pair _ _ _
    (abs_sub_le_abs_add_of_left_zero _ _ cex_s12) cex_f0_pos cex_f01

lemma cex_w7 : decodeWindow cexConfig
    (((generate_encoded_sound cexConfig (fun _ => 0) cexBits).drop (7 * 2)).take 2) =
    false := by
  rw [cex_seg 7 (by norm_num)]
  exact decodeWindow_pair _ _ _
    (abs_sub_le_abs_add_of_left_zero _ _ cex_s14) cex_f0_pos cex_f01

lemma cex_decode :
    decode_audio_to_binary cexConfig
      (generate_encoded_sound cexConfig (fun _ => 0) (text_to_binary [1])) =
      List.replicate 8 false := by
  rw [cex_bits]
  rw [decode_audio_to_binary, generate_encoded_sound_length, cex_spb, cex_len]
  rw [show (8 * 2) / 2 = 8 from rfl]
  rw [show List.range 8 = [0, 1, 2, 3, 4, 5, 6, 7] from rfl]
  simp only [List.map_cons, List.map_nil]
  rw [cex_w0, cex_w1, cex_w2, cex_w3, cex_w4, cex_w5, cex_w6, cex_w7]
  rfl

lemma cex_valid : ValidConfig cexConfig := by
  refine ⟨by norm_num [cexConfig], by norm_num [cexConfig], by norm_num [cexConfig],
    by norm_num [cexConfig], by norm_num [cexConfig], by norm_num [cexConfig],
    by norm_num [cexConfig], by norm_num [cexConfig], by rw [cex_spb]; omega⟩

/-! ## Claim C1 -/

/-- C1 (counterexample): the round-trip identity fails as stated.  The valid
configuration `cexConfig` has `noiseMin = noiseMax = 0` and tone separation
`|6 - 1| = 5` strictly greater than `sampleRateHz/samplesPerBit = 8/2 = 4`,
yet the byte string `[0x01]` does not survive
`bitsToBytes (demodulate (modulate (bytesToBits s)))`: every two-sample
window of the modulated signal decodes to bit 0, so the decoded byte is
`0x00`. -/
theorem spec_C1_counterexample :
    ValidConfig cexConfig ∧ cexConfig.noiseMin = 0 ∧ cexConfig.noiseMax = 0 ∧
      (cexConfig.sampleRateHz : ℚ) / (samples_per_bit cexConfig : ℚ) <
        |cexConfig.freqOneHz - cexConfig.freqZeroHz| ∧
      binary_to_text (decode_audio_to_binary cexConfig
        (generate_encoded_sound cexConfig (fun _ => 0) (text_to_binary [1]))) ≠
        [1] := by
  refine ⟨cex_valid, rfl, rfl, ?_, ?_⟩
  · rw [cex_spb]
    norm_num [cexConfig]
  · rw [cex_decode]
    decide

/-- C1 (amended): for every byte string `s` and every valid ModulationConfig
with `noiseMin = noiseMax = 0` whose two tone frequencies are separated by
more than `sampleRateHz/samplesPerBit` **and are positive integer multiples
of `sampleRateHz/samplesPerBit` strictly below the Nyquist frequency**
(`freqZeroHz·samplesPerBit = k0·sampleRateHz` with `1 ≤ k0`,
`2·k0 < samplesPerBit`, likewise `k1`), the noise-free round trip
`bitsToBytes (demodulate (modulate (bytesToBits s)))` returns `s`. -/
theorem spec_C1_roundtrip_aligned (c : ModulationConfig) (noise : ℕ → ℝ)
    (s : List ℕ) (k0 k1 : ℕ)
    (hv : ValidConfig c)
    (hmin : c.noiseMin = 0) (hmax : c.noiseMax = 0)
    (hnoise : ∀ n, c.noiseMin ≤ noise n ∧ noise n ≤ c.noiseMax)
    (hsep : (c.sampleRateHz : ℚ) / (samples_per_bit c : ℚ) <
      |c.freqOneHz - c.freqZeroHz|)
    (hk0 : 1 ≤ k0) (h2k0 : 2 * k0 < samples_per_bit c)
    (hf0 : c.freqZeroHz * (samples_per_bit c : ℚ) = (k0 : ℚ) * c.sampleRateHz)
    (hk1 : 1 ≤ k1) (h2k1 : 2 * k1 < samples_per_bit c)
    (hf1 : c.freqOneHz * (samples_per_bit c : ℚ) = (k1 : ℚ) * c.sampleRateHz)
    (hbytes : ∀ b ∈ s, b < 256) :
    binary_to_text (decode_audio_to_binary c
      (generate_encoded_sound c noise (text_to_binary s))) = s := by
  obtain ⟨hR, hdur, hfz, hfo, hfne, hAmp, hAle, hnm, hspb⟩ := hv
  have hnoise0 : ∀ n, noise n = 0 := by
    intro n
    have h := hnoise n
    rw [hmin, hmax] at h
    push_cast at h
    linarith [h.1, h.2]
  have hne : k0 ≠ k1 := by
    intro h
    apply hfne
    subst h
    have heq : c.freqZeroHz * ((samples_per_bit c : ℕ) : ℚ) =
        c.freqOneHz * ((samples_per_bit c : ℕ) : ℚ) := by rw [hf0, hf1]
    have hNQ : ((samples_per_bit c : ℕ) : ℚ) ≠ 0 := by
      exact_mod_cast (by omega : samples_per_bit c ≠ 0)
    exact mul_right_cancel₀ hNQ heq
  rw [decode_encode_pure c noise _ k0 k1 hR hAmp hnoise0 hk0 h2k0 hk1 h2k1
    hne hf0 hf1]
  exact binary_to_text_text_to_binary s hbytes

/-- The spec §8's concrete scenario configuration: 22050 Hz, 20 ms bits
(441 samples per bit), tones 1000 Hz and 1500 Hz (bins 20 and 30). -/
def stdConfig : ModulationConfig where
  sampleRateHz := 22050
  bitDurationSec := 1/50
  freqZeroHz := 1000
  freqOneHz := 1500
  amplitude := 1/10
  noiseMin := 0
  noiseMax := 0

lemma std_spb : samples_per_bit stdConfig = 441 := by
  rw [samples_per_bit,
    show stdConfig.bitDurationSec * ((stdConfig.sampleRateHz : ℤ) : ℚ) = 441 by
      norm_num [stdConfig]]
  rw [ratTrunc]
  norm_num
  rfl

lemma std_valid : ValidConfig stdConfig := by
  refine ⟨by norm_num [stdConfig], by norm_num [stdConfig], by norm_num [stdConfig],
    by norm_num [stdConfig], by norm_num [stdConfig], by norm_num [stdConfig],
    by norm_num [stdConfig], by norm_num [stdConfig], by rw [std_spb]; omega⟩

/-- C1 witness: the amended round trip applied to the byte `0x41` under the
source's own parameters (22050 Hz, 441 samples per bit, 1000/1500 Hz). -/
theorem spec_C1_roundtrip_aligned_witness :
    ValidConfig stdConfig ∧
      binary_to_text (decode_audio_to_binary stdConfig
        (generate_encoded_sound stdConfig (fun _ => 0) (text_to_binary [65]))) =
        [65] := by
  refine ⟨std_valid, ?_⟩
  refine spec_C1_roundtrip_aligned stdConfig (fun _ => 0) [65] 20 30 std_valid
    rfl rfl (fun n => ⟨by norm_num [stdConfig], by norm_num [stdConfig]⟩) ?_ ?_ ?_
    ?_ ?_ ?_ ?_ ?_
  · rw [std_spb]
    norm_num [stdConfig]
  · norm_num
  · rw [std_spb]
    norm_num
  · rw [std_spb]
    norm_num [stdConfig]
  · norm_num
  · rw [std_spb]
    norm_num
  · rw [std_spb]
    norm_num [stdConfig]
  · intro b hb
    simp only [List.mem_singleton] at hb
    omega

/-! ## Claim C2 -/

/-- Counterexample configuration for C2: `bit_duration * sample_rate = 2.9`,
which `int()` truncates to 2 while rounding gives 3. -/
def c2Config : ModulationConfig where
  sampleRateHz := 10
  bitDurationSec := 29/100
  freqZeroHz := 1
  freqOneHz := 3
  amplitude := 1/10
  noiseMin := 0
  noiseMax := 0

lemma c2_spb : samples_per_bit c2Config = 2 := by
  rw [samples_per_bit,
    show c2Config.bitDurationSec * ((c2Config.sampleRateHz : ℤ) : ℚ) = 29/10 by
      norm_num [c2Config]]
  rw [ratTrunc_eq_floor _ (by norm_num)]
  norm_num
  rfl

lemma c2_valid : ValidConfig c2Config := by
  refine ⟨by norm_num [c2Config], by norm_num [c2Config], by norm_num [c2Config],
    by norm_num [c2Config], by norm_num [c2Config], by norm_num [c2Config],
    by norm_num [c2Config], by norm_num [c2Config], by rw [c2_spb]; omega⟩

/-- C2 (counterexample): the derived window length is not round-to-nearest.
For the valid configuration with `bitDurationSec = 0.29` and
`sampleRateHz = 10` the code's `int(0.29 * 10) = 2`, while
`round(2.9) = 3`. -/
theorem spec_C2_counterexample :
    ValidConfig c2Config ∧
      (samples_per_bit c2Config : ℤ) ≠
        round (c2Config.bitDurationSec * (c2Config.sampleRateHz : ℚ)) := by
  refine ⟨c2_valid, ?_⟩
  rw [c2_spb,
    show c2Config.bitDurationSec * ((c2Config.sampleRateHz : ℤ) : ℚ) = 29/10 by
      norm_num [c2Config],
    round_eq]
  norm_num

/-- C2 (amended): for every valid config, `samplesPerBit` is the truncation
toward zero of `bitDurationSec * sampleRateHz` — the unique integer `n` with
`n ≤ bitDurationSec·sampleRateHz < n + 1` for the positive product — and it
satisfies `samplesPerBit ≥ 1`. -/
theorem spec_C2_trunc (c : ModulationConfig) (hv : ValidConfig c) :
    ((samples_per_bit c : ℕ) : ℚ) ≤ c.bitDurationSec * (c.sampleRateHz : ℚ) ∧
      c.bitDurationSec * (c.sampleRateHz : ℚ) < (samples_per_bit c : ℕ) + 1 ∧
      1 ≤ samples_per_bit c := by
  obtain ⟨hR, hdur, _, _, _, _, _, _, hspb⟩ := hv
  have hRQ : (0 : ℚ) < (c.sampleRateHz : ℚ) := by exact_mod_cast hR
  have hq : 0 ≤ c.bitDurationSec * (c.sampleRateHz : ℚ) :=
    le_of_lt (mul_pos hdur hRQ)
  have hfl : ratTrunc (c.bitDurationSec * (c.sampleRateHz : ℚ)) =
      ⌊c.bitDurationSec * (c.sampleRateHz : ℚ)⌋ := ratTrunc_eq_floor _ hq
  have hZ : ((samples_per_bit c : ℕ) : ℤ) =
      ⌊c.bitDurationSec * (c.sampleRateHz : ℚ)⌋ := by
    rw [samples_per_bit, hfl, Int.toNat_of_nonneg (Int.floor_nonneg.mpr hq)]
  have hQ : ((samples_per_bit c : ℕ) : ℚ) =
      ((⌊c.bitDurationSec * (c.sampleRateHz : ℚ)⌋ : ℤ) : ℚ) := by
    exact_mod_cast congrArg (fun z : ℤ => (z : ℚ)) hZ
  refine ⟨?_, ?_, hspb⟩
  · rw [hQ]
    exact Int.floor_le _
  · rw [hQ]
    exact Int.lt_floor_add_one _

/-- C2 witness: the amended truncation characterisation instantiated at the
counterexample configuration. -/
theorem spec_C2_trunc_witness :
    ValidConfig c2Config ∧
      (((samples_per_bit c2Config : ℕ) : ℚ) ≤
          c2Config.bitDurationSec * (c2Config.sampleRateHz : ℚ) ∧
        c2Config.bitDurationSec * (c2Config.sampleRateHz : ℚ) <
          (samples_per_bit c2Config : ℕ) + 1 ∧
        1 ≤ samples_per_bit c2Config) :=
  ⟨c2_valid, spec_C2_trunc c2Config c2_valid⟩

/-! ## Claim C3 -/

/-- C3: in each demodulation window the decoded bit is `1` iff
`|dominantFreq - freqOneHz| < |dominantFreq - freqZeroHz|` (strict), and a
window whose dominant frequency is exactly equidistant from the two tones
decodes to `0`. -/
theorem spec_C3_classification (c : ModulationConfig) (samples : List ℝ)
    (i : ℕ) (h : i < (decode_audio_to_binary c samples).length) :
    ((decode_audio_to_binary c samples).get ⟨i, h⟩ = true ↔
      |dominantFreq c ((samples.drop (i * samples_per_bit c)).take
          (samples_per_bit c)) - c.freqOneHz| <
        |dominantFreq c ((samples.drop (i * samples_per_bit c)).take
          (samples_per_bit c)) - c.freqZeroHz|) ∧
    (|dominantFreq c ((samples.drop (i * samples_per_bit c)).take
          (samples_per_bit c)) - c.freqOneHz| =
        |dominantFreq c ((samples.drop (i * samples_per_bit c)).take
          (samples_per_bit c)) - c.freqZeroHz| →
      (decode_audio_to_binary c samples).get ⟨i, h⟩ = false) := by
  have hget : (decode_audio_to_binary c samples).get ⟨i, h⟩ =
      decodeWindow c ((samples.drop (i * samples_per_bit c)).take
        (samples_per_bit c)) := by
    simp [decode_audio_to_binary]
  constructor
  · rw [hget, decodeWindow]
    by_cases hP : |dominantFreq c ((samples.drop (i * samples_per_bit c)).take
        (samples_per_bit c)) - c.freqOneHz| <
        |dominantFreq c ((samples.drop (i * samples_per_bit c)).take
          (samples_per_bit c)) - c.freqZeroHz|
    · simp [hP]
    · simp [hP]
  · intro heq
    rw [hget, decodeWindow, if_neg (by rw [heq]; exact lt_irrefl _)]

/-- Configuration for the C3 tie-break witness: 4 Hz rate, 2 samples per
bit, tones 1 Hz and 3 Hz; the window `[1, -1]` has dominant frequency 2 Hz,
exactly equidistant from both tones. -/
def c3Config : ModulationConfig where
  sampleRateHz := 4
  bitDurationSec := 1/2
  freqZeroHz := 1
  freqOneHz := 3
  amplitude := 1/2
  noiseMin := 0
  noiseMax := 0

lemma c3_spb : samples_per_bit c3Config = 2 := by
  rw [samples_per_bit,
    show c3Config.bitDurationSec * ((c3Config.sampleRateHz : ℤ) : ℚ) = 2 by
      norm_num [c3Config]]
  rw [ratTrunc]
  norm_num
  rfl

lemma c3_dom : dominantFreq c3Config [(1 : ℝ), -1] = 2 := by
  rw [dominantFreq, fftMags_pair, argmax_pair]
  rw [if_pos (by norm_num : |(1 : ℝ) + -1| < |(1 : ℝ) - -1|)]
  rw [show ([(1 : ℝ), -1]).length = 2 from rfl, fftfreqVal]
  norm_num [c3Config]

lemma c3_declen : 0 < (decode_audio_to_binary c3Config [(1 : ℝ), -1]).length := by
  rw [decode_length, c3_spb]
  norm_num

/-- C3 witness: the concrete equidistant window `[1, -1]` under `c3Config`
decodes to bit `0`. -/
theorem spec_C3_classification_witness :
    |dominantFreq c3Config [(1 : ℝ), -1] - c3Config.freqOneHz| =
      |dominantFreq c3Config [(1 : ℝ), -1] - c3Config.freqZeroHz| ∧
    (decode_audio_to_binary c3Config [(1 : ℝ), -1]).get ⟨0, c3_declen⟩ =
      false := by
  have hseg : (([(1 : ℝ), -1]).drop (0 * samples_per_bit c3Config)).take
      (samples_per_bit c3Config) = [(1 : ℝ), -1] := by
    rw [c3_spb]
    rfl
  have heq : |dominantFreq c3Config [(1 : ℝ), -1] - c3Config.freqOneHz| =
      |dominantFreq c3Config [(1 : ℝ), -1] - c3Config.freqZeroHz| := by
    rw [c3_dom]
    norm_num [c3Config]
  refine ⟨heq, ?_⟩
  exact (spec_C3_classification c3Config [(1 : ℝ), -1] 0 c3_declen).2
    (by rw [hseg]; exact heq)

/-! ## Claim C4 -/

/-- C4: modulation is total and its output has length exactly
`len(bits) * samplesPerBit`, for every bit sequence including the empty
one and every noise draw. -/
theorem spec_C4_length (c : ModulationConfig) (noise : ℕ → ℝ)
    (bits : List Bool) :
    (generate_encoded_sound c noise bits).length =
      bits.length * samples_per_bit c :=
  generate_encoded_sound_length c noise bits

/-! ## Claim C5 -/

/-- C5: the demodulator returns exactly `⌊len(samples)/samplesPerBit⌋` bits,
and a buffer shorter than one window (including the empty buffer) yields the
empty bit sequence rather than an error. -/
theorem spec_C5_demod_length (c : ModulationConfig) (samples : List ℝ) :
    (decode_audio_to_binary c samples).length =
      samples.length / samples_per_bit c ∧
    (samples.length < samples_per_bit c →
      decode_audio_to_binary c samples = []) := by
  refine ⟨decode_length c samples, ?_⟩
  intro hshort
  rw [decode_audio_to_binary, Nat.div_eq_of_lt hshort]
  rfl

/-- C5 witness: a one-sample buffer under the source's configuration
(441 samples per bit) decodes to the empty bit sequence. -/
theorem spec_C5_demod_length_witness :
    ([(0 : ℝ)] : List ℝ).length < samples_per_bit stdConfig ∧
      decode_audio_to_binary stdConfig [(0 : ℝ)] = [] := by
  have hlen : ([(0 : ℝ)] : List ℝ).length < samples_per_bit stdConfig := by
    rw [std_spb]
    norm_num
  exact ⟨hlen, (spec_C5_demod_length stdConfig [(0 : ℝ)]).2 hlen⟩

/-! ## Claim C9 -/

/-- C9: demodulation is a pure function of the sample buffer and config —
equal inputs give equal outputs, with no hidden state (in this embedding
`decode_audio_to_binary` reads nothing but its two arguments). -/
theorem spec_C9_determinism (c c' : ModulationConfig) (s s' : List ℝ)
    (hc : c = c') (hs : s = s') :
    decode_audio_to_binary c s = decode_audio_to_binary c' s' := by
  rw [hc, hs]

/-- C9 witness: two runs on the same concrete buffer agree. -/
theorem spec_C9_determinism_witness :
    decode_audio_to_binary stdConfig [(1 : ℝ), 0] =
      decode_audio_to_binary stdConfig [(1 : ℝ), 0] :=
  spec_C9_determinism stdConfig stdConfig [(1 : ℝ), 0] [(1 : ℝ), 0] rfl rfl

/-! ## Claim C7 -/

lemma text_to_binary_eq_byteBits : ∀ s : List ℕ, (∀ b ∈ s, b < 256) →
    text_to_binary s = s.flatMap byteBitsMSB := by
  intro s
  induction s with
  | nil => intro _; rfl
  | cons b t ih =>
      intro h
      rw [text_to_binary_cons, charBits_eq_byteBitsMSB (h b (by simp)),
        ih (fun x hx => h x (by simp [hx]))]
      rfl

/-- C7: `bytesToBits` emits, for each byte in input order, exactly its 8 bits
most-significant-bit first; it is total and the output length is exactly
`8 * len(data)`. -/
theorem spec_C7_bytesToBits (data : List ℕ) (hdata : ∀ b ∈ data, b < 256) :
    text_to_binary data = data.flatMap byteBitsMSB ∧
      (text_to_binary data).length = 8 * data.length :=
  ⟨text_to_binary_eq_byteBits data hdata, text_to_binary_length_bytes data hdata⟩

/-- C7 witness: the byte `0x41` yields exactly the 8 bits `01000001`. -/
theorem spec_C7_bytesToBits_witness :
    text_to_binary [65] = [65].flatMap byteBitsMSB ∧
      (text_to_binary [65]).length = 8 * ([65] : List ℕ).length :=
  spec_C7_bytesToBits [65] (by decide)

/-! ## Claim C8 -/

/-- C8: `bitsToBytes` groups bits into chunks of 8 in order and silently
drops a trailing chunk shorter than 8 (no padding, no error); a 12-bit
sequence yields exactly 1 byte and the empty sequence yields no bytes. -/
theorem spec_C8_truncation (l : List Bool) :
    binary_to_text l = (List.range (l.length / 8)).map
      (fun i => natOfBits ((l.drop (8 * i)).take 8)) ∧
    (l.length = 12 → (binary_to_text l).length = 1) ∧
    binary_to_text [] = ([] : List ℕ) := by
  refine ⟨binary_to_text_groups l, ?_, rfl⟩
  intro h12
  rw [binary_to_text_groups l]
  simp [h12]

/-- C8 witness: a concrete 12-bit sequence converts to exactly one byte. -/
theorem spec_C8_truncation_witness :
    (List.replicate 12 true).length = 12 ∧
      (binary_to_text (List.replicate 12 true)).length = 1 :=
  ⟨by decide, (spec_C8_truncation (List.replicate 12 true)).2.1 (by decide)⟩

/-! ## Claim C10 -/

/-- C10: `text_to_binary` emits exactly 8 bits per character iff every code
point is below 256; a character with code point ≥ 256 contributes more than
8 bits (the `'08b'` format pads but never truncates), making the total
length exceed `8 * len(text)` and misaligning the 8-bit framing. -/
theorem spec_C10_wide_chars (text : List ℕ) :
    ((text_to_binary text).length = 8 * text.length ↔ ∀ cp ∈ text, cp < 256) ∧
    (∀ cp ∈ text, 256 ≤ cp → 8 < (charBits cp).length) ∧
    ((∃ cp ∈ text, 256 ≤ cp) → 8 * text.length < (text_to_binary text).length) := by
  refine ⟨text_to_binary_length_eq_iff text, ?_, text_to_binary_length_gt text⟩
  intro cp _ hcp
  exact charBits_length_gt hcp

/-- C10 witness: the code point 300 makes a one-character text encode to
more than 8 bits. -/
theorem spec_C10_wide_chars_witness :
    8 * ([300] : List ℕ).length < (text_to_binary [300]).length :=
  (spec_C10_wide_chars [300]).2.2 ⟨300, by decide, by decide⟩

/-! ## Claim C6 -/

lemma getD_take_drop (l : List ℝ) (M N j : ℕ) (hj : j < N) :
    ((l.drop M).take N).getD j 0 = l.getD (M + j) 0 := by
  have h1 : ((l.drop M).take N).getD j 0 = (((l.drop M).take N).get? j).getD 0 :=
    rfl
  have h2 : (l.getD (M + j) 0) = (l.get? (M + j)).getD 0 := rfl
  rw [h1, h2, List.get?_take hj, List.get?_drop]

lemma generate_encoded_sound_getD (c : ModulationConfig) (noise : ℕ → ℝ)
    (bits : List Bool) (i j : ℕ) (hi : i < bits.length)
    (hj : j < samples_per_bit c) :
    (generate_encoded_sound c noise bits).getD (i * samples_per_bit c + j) 0 =
      sampleValue c noise (bits.getD i false) (i * samples_per_bit c + j) := by
  rw [← getD_take_drop (generate_encoded_sound c noise bits)
    (i * samples_per_bit c) (samples_per_bit c) j hj]
  rw [generate_encoded_sound_segment c noise bits i hi]
  have hlen : j < ((List.range (samples_per_bit c)).map
      (fun j => sampleValue c noise (bits.getD i false)
        (i * samples_per_bit c + j))).length := by
    simpa using hj
  rw [List.getD_eq_getElem _ _ hlen, List.getElem_map, List.getElem_range]

/-- C6: the modulator's waveform definition.  Sample `i*samplesPerBit + j`
of the buffer (bit index `i`, offset `j` inside the bit's window, a single
running sample index never reset between bits) equals
`sin(2π · frequency · n/sampleRateHz) · amplitude + noise n` where the
frequency is `freqOneHz` for a 1 bit and `freqZeroHz` for a 0 bit and the
noise draw lies in `[noiseMin, noiseMax]`. -/
theorem spec_C6_waveform (c : ModulationConfig) (noise : ℕ → ℝ)
    (bits : List Bool) (i j : ℕ) (hi : i < bits.length)
    (hj : j < samples_per_bit c)
    (hb : ∀ n, (c.noiseMin : ℝ) ≤ noise n ∧ noise n ≤ (c.noiseMax : ℝ))
    (hidx : i * samples_per_bit c + j <
      (generate_encoded_sound c noise bits).length) :
    (generate_encoded_sound c noise bits).get
        ⟨i * samples_per_bit c + j, hidx⟩ =
      Real.sin (2 * Real.pi *
          ((if bits.getD i false then c.freqOneHz else c.freqZeroHz : ℚ) : ℝ) *
          (((i * samples_per_bit c + j : ℕ) : ℝ) /
            ((c.sampleRateHz : ℤ) : ℝ))) * ((c.amplitude : ℚ) : ℝ) +
        noise (i * samples_per_bit c + j) := by
  have hg : (generate_encoded_sound c noise bits).get
      ⟨i * samples_per_bit c + j, hidx⟩ =
      (generate_encoded_sound c noise bits).getD
        (i * samples_per_bit c + j) 0 := by
    rw [List.getD_eq_getElem _ _ hidx]
    rfl
  rw [hg, generate_encoded_sound_getD c noise bits i j hi hj]
  rfl

/-- C6 witness: the first sample of the modulated single bit `1` under
`cexConfig` with the zero noise stream. -/
theorem spec_C6_waveform_witness :
    (generate_encoded_sound cexConfig (fun _ => 0) [true]).get
        ⟨0 * samples_per_bit cexConfig + 0,
          (by rw [generate_encoded_sound_length, cex_spb]; norm_num)⟩ =
      Real.sin (2 * Real.pi * ((cexConfig.freqOneHz : ℚ) : ℝ) *
          (((0 * samples_per_bit cexConfig + 0 : ℕ) : ℝ) /
            ((cexConfig.sampleRateHz : ℤ) : ℝ))) *
        ((cexConfig.amplitude : ℚ) : ℝ) + 0 :=
  spec_C6_waveform cexConfig (fun _ => 0) [true] 0 0 (by norm_num)
    (by rw [cex_spb]; omega)
    (fun n => ⟨by norm_num [cexConfig], by norm_num [cexConfig]⟩) _

end LutheranRadio
